import Mathlib

/-!
Verification of the `SarvamMHandler` chat-template transcoder
(`bfcl_eval/model_handler/local_inference/sarvamm.py`).

Strings are modelled as `List Char`; Python string operations
(`split`, `lstrip`, `rstrip`, `strip`, `endswith`, `in`) are given
executable translations below, and the three handler methods
`_format_prompt`, `_parse_query_response_prompting` and
`_add_assistant_message_prompting` are embedded as pure functions.
-/

namespace SarvamM

/-- Python `c.isspace()` restricted to the ASCII whitespace characters
that `str.rstrip()` strips (all strings in this development are ASCII). -/
def pyIsSpace (c : Char) : Bool :=
  c == ' ' || c == '\t' || c == '\n' || c == '\r' || c == '\x0b' || c == '\x0c'

/-- Python `s.lstrip("\n")`: drop leading newline characters. -/
def lstripNL (s : List Char) : List Char :=
  s.dropWhile (fun c => c == '\n')

/-- Python `s.rstrip("\n")`: drop trailing newline characters. -/
def rstripNL (s : List Char) : List Char :=
  (s.reverse.dropWhile (fun c => c == '\n')).reverse

/-- Python `s.strip("\n")`: drop leading and trailing newline characters. -/
def stripNL (s : List Char) : List Char :=
  rstripNL (lstripNL s)

/-- Python `s.rstrip()`: drop trailing whitespace. -/
def pyRstripWS (s : List Char) : List Char :=
  (s.reverse.dropWhile pyIsSpace).reverse

/-- Python `sep in s`: substring containment (for non-empty `sep`). -/
def containsSub (sep : List Char) : List Char → Bool
  | [] => sep.isEmpty
  | a :: rest => sep.isPrefixOf (a :: rest) || containsSub sep rest

/-- Fuelled worker for `pySplit`; the fuel strictly bounds the input length,
making the definition structurally recursive (hence kernel-reducible). -/
def pySplitFuel (sep : List Char) : Nat → List Char → List (List Char)
  | 0, s => [s]
  | _ + 1, [] => [[]]
  | fuel + 1, a :: rest =>
    if sep.isPrefixOf (a :: rest) && !sep.isEmpty then
      [] :: pySplitFuel sep fuel (List.drop sep.length (a :: rest))
    else
      match pySplitFuel sep fuel rest with
      | [] => [[a]]
      | p :: ps => (a :: p) :: ps

/-- Python `s.split(sep)` for non-empty `sep`: the list of segments between
the left-to-right non-overlapping occurrences of `sep`. -/
def pySplit (sep s : List Char) : List (List Char) :=
  pySplitFuel sep s.length s

/-- The fixed reasoning-close tag literal of the template. -/
def endThinkTag : List Char := ("</think>").data

/-- The fixed reasoning-open tag literal of the template. -/
def openThinkTag : List Char := ("<think>").data

/-- The fixed system-wrapper open delimiter. -/
def sysOpenTag : List Char := ("[SYSTEM_PROMPT]").data

/-- The fixed system-wrapper close delimiter. -/
def sysCloseTag : List Char := ("[/SYSTEM_PROMPT]").data

/-- The fixed user-wrapper open delimiter. -/
def instOpenTag : List Char := ("[INST]").data

/-- The fixed user-wrapper close delimiter. -/
def instCloseTag : List Char := ("[/INST]").data

/-- The `default_think_system_message` literal of `_format_prompt`. -/
def defaultThinkMsg : List Char :=
  ("You are a helpful assistant. Think deeply before answering the user's question. Do the thinking inside <think>...</think> tags.").data

/-- The `think_system_message_addition` literal of `_format_prompt`. -/
def thinkAdditionMsg : List Char :=
  ("Think deeply before answering the user's question. Do the thinking inside <think>...</think> tags.").data

/-- Conversation roles; `other` stands for any role outside the three the
template supports. -/
inductive Role where
  | system
  | user
  | assistant
  | other
deriving DecidableEq

/-- One conversation turn, mirroring the Python message dict: `content` is
the visible text (defaulted to `""` by `message.get("content","") or ""`),
`reasoning_content` is `none` when the key is absent or `None`. -/
structure Message where
  role : Role
  content : List Char := []
  reasoning_content : Option (List Char) := none
deriving DecidableEq

/-- Errors raised by `_format_prompt` (Python `ValueError`s), tagged with
the loop index at which they are raised. -/
inductive FormatError where
  | alternation (idx : Nat) (role : Role)
  | unsupported (idx : Nat) (role : Role)
deriving DecidableEq

/-- The loop index at which a `FormatError` was raised. -/
def FormatError.index : FormatError → Nat
  | FormatError.alternation i _ => i
  | FormatError.unsupported i _ => i

/-- Python truthiness of `message.get("reasoning_content")`: the field must
be present and a non-empty string. -/
def truthyReasoning (m : Message) : Option (List Char) :=
  match m.reasoning_content with
  | some r => if r = [] then none else some r
  | none => none

/-- The inline `<think>...</think>` split of the assistant branch of
`_format_prompt` (lines 214-222): `parts = content.split("</think>")`,
visible is `parts[-1].lstrip("\n")`, reasoning is
`parts[0].rstrip("\n").split("<think>")[-1].lstrip("\n")`; when the close
tag is absent the content passes through with empty reasoning. -/
def inlineSplitStep (content : List Char) : List Char × List Char :=
  if containsSub endThinkTag content then
    let parts := pySplit endThinkTag content
    (lstripNL (parts.getLastD []),
     lstripNL ((pySplit openThinkTag (rstripNL (parts.headD []))).getLastD []))
  else
    (content, [])

/-- The completion split of `_parse_query_response_prompting`
(lines 261-271), before the EOS-stripping step: identical in structure to
`inlineSplitStep`. -/
def responseSplitStep (raw : List Char) : List Char × List Char :=
  if containsSub endThinkTag raw then
    let parts := pySplit endThinkTag raw
    (lstripNL (parts.getLastD []),
     lstripNL ((pySplit openThinkTag (rstripNL (parts.headD []))).getLastD []))
  else
    (raw, [])

/-- Rendering of a single turn of the loop of `_format_prompt` at loop
index `idx`, where `numLoop` is the length of the loop set. -/
def renderTurn (eos : List Char) (numLoop idx : Nat) (m : Message) :
    Except FormatError (List Char) :=
  match m.role with
  | Role.user =>
      if idx % 2 = 1 then
        Except.error (FormatError.alternation idx Role.user)
      else if idx = numLoop - 1 then
        Except.ok (instOpenTag ++ m.content ++ instCloseTag ++ openThinkTag ++ ['\n'])
      else
        Except.ok (instOpenTag ++ m.content ++ instCloseTag)
  | Role.assistant =>
      if idx % 2 = 0 then
        Except.error (FormatError.alternation idx Role.assistant)
      else
        let cr : List Char × List Char :=
          match truthyReasoning m with
          | some r => (m.content, r)
          | none => inlineSplitStep m.content
        if idx = numLoop - 1 ∧ cr.2 ≠ [] then
          Except.ok (openThinkTag ++ '\n' :: (stripNL cr.2 ++ '\n' :: (endThinkTag ++ '\n' :: '\n' :: (lstripNL cr.1 ++ eos))))
        else
          Except.ok (cr.1 ++ eos)
  | r => Except.error (FormatError.unsupported idx r)

/-- The `for idx, message in enumerate(loop_messages)` loop of
`_format_prompt`: renders each turn in order, propagating the first error. -/
def renderLoop (eos : List Char) (numLoop : Nat) : Nat → List Message → Except FormatError (List Char)
  | _, [] => Except.ok []
  | idx, m :: rest =>
    match renderTurn eos numLoop idx m with
    | Except.error e => Except.error e
    | Except.ok s =>
      match renderLoop eos numLoop (idx + 1) rest with
      | Except.error e => Except.error e
      | Except.ok t => Except.ok (s ++ t)

/-- The `system_message` computed by `_format_prompt` (thinking always
enabled): a leading system turn is prefixed with the think addition,
otherwise the default think message is used. -/
def systemMessageOf : List Message → List Char
  | [] => defaultThinkMsg
  | m :: _ =>
    if m.role = Role.system then thinkAdditionMsg ++ '\n' :: '\n' :: m.content
    else defaultThinkMsg

/-- The `loop_messages` of `_format_prompt`: all turns, minus a leading
system turn. -/
def loopMessages : List Message → List Message
  | [] => []
  | m :: rest => if m.role = Role.system then rest else m :: rest

/-- Embedding of `SarvamMHandler._format_prompt` (thinking always enabled,
`function` unused): builds `bos + "\n\n" + "[SYSTEM_PROMPT]" + system_message
+ "[/SYSTEM_PROMPT]"` followed by the rendered loop turns, or the first
`ValueError` the loop raises. -/
def formatPrompt (bos eos : List Char) (messages : List Message) :
    Except FormatError (List Char) :=
  let loopMsgs := loopMessages messages
  match renderLoop eos loopMsgs.length 0 loopMsgs with
  | Except.error e => Except.error e
  | Except.ok body =>
    Except.ok (bos ++ '\n' :: '\n' :: (sysOpenTag ++ systemMessageOf messages ++ sysCloseTag ++ body))

/-- Embedding of `SarvamMHandler._parse_query_response_prompting` on the
completion text: the tag split followed by the optional trailing-EOS strip;
returns `(model_responses, reasoning_content)`. -/
def parseQueryResponsePrompting (modelResponse eos : List Char) :
    List Char × List Char :=
  let p := responseSplitStep modelResponse
  let cleaned :=
    if (!eos.isEmpty) && eos.isSuffixOf p.1 then
      pyRstripWS (p.1.take (p.1.length - eos.length))
    else
      p.1
  (cleaned, p.2)

/-- The inference-data store: the `"message"` key plus all other keys of
the dict, abstracted as `rest`. -/
structure InferenceData (α : Type) where
  message : List Message
  rest : α

/-- The decoded-response dict as consumed by
`_add_assistant_message_prompting`: `model_responses` is required,
`reasoning_content` is read with `.get(..., "")`. -/
structure ModelResponseData where
  model_responses : List Char
  reasoning_content : Option (List Char) := none

/-- Embedding of `SarvamMHandler._add_assistant_message_prompting`: append
the decoded assistant turn to `inference_data["message"]`. -/
def addAssistantMessagePrompting {α : Type} (d : InferenceData α)
    (resp : ModelResponseData) : InferenceData α :=
  { d with
    message := d.message ++
      [{ role := Role.assistant
         content := resp.model_responses
         reasoning_content := some (resp.reasoning_content.getD []) }] }

/-- Reference function (for claim statements): the segment of `s` strictly
before the first occurrence of `sep`, or all of `s` when `sep` is absent. -/
def beforeFirstOcc (sep : List Char) : List Char → List Char
  | [] => []
  | a :: rest =>
    if sep.isPrefixOf (a :: rest) then [] else a :: beforeFirstOcc sep rest

/-- Reference function (for claim statements): the segment of `s` strictly
after the last occurrence of `sep`, or all of `s` when `sep` is absent. -/
def afterLastOcc (sep : List Char) : List Char → List Char
  | [] => []
  | a :: rest =>
    if containsSub sep rest then afterLastOcc sep rest
    else if sep.isPrefixOf (a :: rest) then List.drop sep.length (a :: rest)
    else a :: rest

/-- Boolean test that `sep` cannot overlap itself: no proper non-empty
suffix of `sep` is also a prefix of `sep`. -/
def borderFree (sep : List Char) : Bool :=
  (List.range sep.length).all
    (fun k => k == 0 || !(List.drop k sep == List.take (sep.length - k) sep))

/-- The role/position condition on which the loop of `_format_prompt`
raises a `ValueError`: a user turn at an odd loop index, an assistant turn
at an even loop index, or any role outside user/assistant (a system turn
inside the loop falls into the final `else` of the Python loop). -/
def isViolation (idx : Nat) (m : Message) : Bool :=
  match m.role with
  | Role.user => idx % 2 == 1
  | Role.assistant => idx % 2 == 0
  | Role.system => true
  | Role.other => true

/-! Lemmas about the Python `split` embedding. -/

/-- The fuel argument of `pySplitFuel` is irrelevant once it dominates the
input length. -/
theorem pySplitFuel_congr (sep : List Char) :
    ∀ (f₁ : Nat) (s : List Char) (f₂ : Nat), s.length ≤ f₁ → s.length ≤ f₂ →
      pySplitFuel sep f₁ s = pySplitFuel sep f₂ s := by
  intro f₁
  induction f₁ with
  | zero =>
    intro s f₂ h₁ _
    have hs : s = [] := List.length_eq_zero.mp (Nat.le_zero.mp h₁)
    subst hs
    cases f₂ <;> rfl
  | succ f ih =>
    intro s f₂ h₁ h₂
    match s, f₂ with
    | [], f₂ => cases f₂ <;> rfl
    | a :: rest, 0 => simp at h₂
    | a :: rest, g + 1 =>
      simp only [List.length_cons] at h₁ h₂
      simp only [pySplitFuel]
      by_cases hp : (sep.isPrefixOf (a :: rest) && !sep.isEmpty) = true
      · rw [if_pos hp, if_pos hp]
        have hne : sep ≠ [] := by
          intro hnil
          rw [hnil] at hp
          simp at hp
        have hsep1 : 1 ≤ sep.length := by
          cases sep with
          | nil => exact absurd rfl hne
          | cons c cs => simp
        have hd : (List.drop sep.length (a :: rest)).length = rest.length + 1 - sep.length := by
          simp [List.length_drop]
        congr 1
        exact ih _ g (by rw [hd]; omega) (by rw [hd]; omega)
      · rw [if_neg hp, if_neg hp, ih rest g (by omega) (by omega)]

/-- Unfolding `pySplit` when `sep` occurs at the head of the input. -/
theorem pySplit_cons_pos {sep : List Char} {a : Char} {rest : List Char}
    (h : sep.isPrefixOf (a :: rest) = true) (hsep : sep ≠ []) :
    pySplit sep (a :: rest) = [] :: pySplit sep (List.drop sep.length (a :: rest)) := by
  have hne : sep.isEmpty = false := by
    cases sep with
    | nil => exact absurd rfl hsep
    | cons c cs => rfl
  have hsep1 : 1 ≤ sep.length := by
    cases sep with
    | nil => exact absurd rfl hsep
    | cons c cs => simp
  show pySplitFuel sep (rest.length + 1) (a :: rest) = _
  simp only [pySplitFuel]
  rw [if_pos (by rw [h, hne]; rfl)]
  congr 1
  exact pySplitFuel_congr sep rest.length _ _
    (by simp only [List.length_drop, List.length_cons]; omega) (Nat.le_refl _)

/-- Unfolding `pySplit` when `sep` does not occur at the head of the input. -/
theorem pySplit_cons_neg {sep : List Char} {a : Char} {rest : List Char}
    (h : sep.isPrefixOf (a :: rest) = false) :
    pySplit sep (a :: rest) =
      match pySplit sep rest with
      | [] => [[a]]
      | p :: ps => (a :: p) :: ps := by
  show pySplitFuel sep (rest.length + 1) (a :: rest) = _
  simp only [pySplitFuel]
  rw [if_neg (by rw [h]; simp)]
  rfl

/-- A Python `split` result is never the empty list. -/
theorem pySplitFuel_ne_nil (sep : List Char) :
    ∀ (f : Nat) (s : List Char), pySplitFuel sep f s ≠ [] := by
  intro f
  induction f with
  | zero => intro s; simp [pySplitFuel]
  | succ f ih =>
    intro s
    match s with
    | [] => simp [pySplitFuel]
    | a :: rest =>
      simp only [pySplitFuel]
      by_cases hp : (sep.isPrefixOf (a :: rest) && !sep.isEmpty) = true
      · rw [if_pos hp]; simp
      · rw [if_neg hp]
        rcases hrest : pySplitFuel sep f rest with _ | ⟨p, ps⟩ <;> simp

/-- A Python `split` result is never the empty list. -/
theorem pySplit_ne_nil (sep s : List Char) : pySplit sep s ≠ [] :=
  pySplitFuel_ne_nil sep s.length s

/-! Lemmas about substring containment. -/

/-- Unfolding lemma for `containsSub` on a cons cell. -/
theorem containsSub_cons (sep : List Char) (a : Char) (rest : List Char) :
    containsSub sep (a :: rest) = (sep.isPrefixOf (a :: rest) || containsSub sep rest) := rfl

/-- A non-empty pattern is not contained in the empty string. -/
theorem containsSub_nil_of_ne {sep : List Char} (hsep : sep ≠ []) :
    containsSub sep [] = false := by
  cases sep with
  | nil => exact absurd rfl hsep
  | cons c cs => rfl

/-- Containment is preserved by prepending on the left. -/
theorem containsSub_append_right {sep b : List Char} (a : List Char)
    (h : containsSub sep b = true) : containsSub sep (a ++ b) = true := by
  induction a with
  | nil => exact h
  | cons x a' ih => simp [containsSub_cons, ih]

/-- If a concatenation is free of `sep`, so is each half. -/
theorem containsSub_append_false {sep : List Char} (hsep : sep ≠ []) {a b : List Char}
    (h : containsSub sep (a ++ b) = false) :
    containsSub sep a = false ∧ containsSub sep b = false := by
  induction a with
  | nil => exact ⟨containsSub_nil_of_ne hsep, h⟩
  | cons x a' ih =>
    rw [List.cons_append, containsSub_cons, Bool.or_eq_false_iff] at h
    obtain ⟨h1, h2⟩ := h
    obtain ⟨ha', hb⟩ := ih h2
    refine ⟨?_, hb⟩
    rw [containsSub_cons, Bool.or_eq_false_iff]
    refine ⟨?_, ha'⟩
    by_contra hcon
    rw [Bool.not_eq_false, List.isPrefixOf_iff_prefix] at hcon
    have : sep.isPrefixOf (x :: (a' ++ b)) = true := by
      rw [List.isPrefixOf_iff_prefix]
      calc sep <+: x :: a' := hcon
        _ <+: (x :: a') ++ b := List.prefix_append _ _
    rw [this] at h1
    exact absurd h1 (by simp)

/-- A newline-free pattern is a prefix of `u ++ '\n' :: v` iff it is a
prefix of `u`. -/
theorem isPrefixOf_append_newline {sep : List Char} (hnl : '\n' ∉ sep)
    (u v : List Char) :
    sep.isPrefixOf (u ++ '\n' :: v) = sep.isPrefixOf u := by
  rw [Bool.eq_iff_iff, List.isPrefixOf_iff_prefix, List.isPrefixOf_iff_prefix]
  constructor
  · intro h
    by_cases hle : sep.length ≤ u.length
    · have h1 : sep = (u ++ '\n' :: v).take sep.length := List.prefix_iff_eq_take.mp h
      have h2 : (u ++ '\n' :: v).take sep.length = u.take sep.length ++ ('\n' :: v).take (sep.length - u.length) := by
        rw [List.take_append_eq_append_take]
      have h3 : sep.length - u.length = 0 := Nat.sub_eq_zero_of_le hle
      rw [h2, h3] at h1
      simp only [List.take_zero, List.append_nil] at h1
      rw [h1]
      exact List.take_prefix _ _
    · exfalso
      have hu : u <+: sep :=
        List.prefix_of_prefix_length_le (List.prefix_append u ('\n' :: v)) h
          (Nat.le_of_lt (Nat.lt_of_not_le hle))
      obtain ⟨w, hw⟩ := hu
      have hwne : w ≠ [] := by
        intro hnil
        rw [hnil, List.append_nil] at hw
        exact hle (hw ▸ Nat.le_refl u.length)
      have hwpre : w <+: '\n' :: v := by
        have := h
        rw [← hw] at this
        exact (List.prefix_append_right_inj u).mp this
      cases w with
      | nil => exact hwne rfl
      | cons c w' =>
        have hc : c = '\n' := by
          obtain ⟨t, ht⟩ := hwpre
          injection ht with h1 _
        apply hnl
        rw [← hw, hc]
        exact List.mem_append_right _ (List.mem_cons_self _ _)
  · intro h
    exact h.trans (List.prefix_append u ('\n' :: v))

/-- Containment of a newline-free pattern distributes over a newline
boundary. -/
theorem containsSub_append_newline {sep : List Char} (hsep : sep ≠ [])
    (hnl : '\n' ∉ sep) (u v : List Char) :
    containsSub sep (u ++ '\n' :: v) = (containsSub sep u || containsSub sep v) := by
  induction u with
  | nil =>
    simp only [List.nil_append, containsSub_cons, containsSub_nil_of_ne hsep, Bool.false_or]
    have hpre : sep.isPrefixOf ('\n' :: v) = false := by
      cases sep with
      | nil => exact absurd rfl hsep
      | cons c cs =>
        have hc : c ≠ '\n' := by
          intro hc
          exact hnl (hc ▸ List.mem_cons_self c cs)
        simp only [List.isPrefixOf, Bool.and_eq_false_iff]
        left
        simpa using hc
    rw [hpre, Bool.false_or]
  | cons x u' ih =>
    simp only [List.cons_append, containsSub_cons, ih]
    rw [show x :: (u' ++ '\n' :: v) = (x :: u') ++ '\n' :: v from rfl,
      isPrefixOf_append_newline hnl (x :: u') v]
    rw [Bool.or_assoc]

/-- A string free of the pattern splits into a single part. -/
theorem pySplit_of_not_contains {sep : List Char} {s : List Char}
    (h : containsSub sep s = false) : pySplit sep s = [s] := by
  induction s with
  | nil => rfl
  | cons a rest ih =>
    rw [containsSub_cons, Bool.or_eq_false_iff] at h
    rw [pySplit_cons_neg h.1, ih h.2]

/-- Splitting a string that begins with the pattern produces a leading
empty part. -/
theorem pySplit_sep_append {sep : List Char} (hsep : sep ≠ []) (b : List Char) :
    pySplit sep (sep ++ b) = [] :: pySplit sep b := by
  cases hs : sep with
  | nil => exact absurd hs hsep
  | cons c cs =>
    rw [← hs]
    have hcons : sep ++ b = c :: (cs ++ b) := by rw [hs]; rfl
    rw [hcons]
    have hpre : sep.isPrefixOf (c :: (cs ++ b)) = true := by
      rw [List.isPrefixOf_iff_prefix, ← hcons]
      exact List.prefix_append sep b
    rw [pySplit_cons_pos hpre hsep, ← hcons, List.drop_left sep b]

/-- Splitting `a ++ "\n" ++ sep ++ b` when `a` is free of the (newline-free)
pattern: the first part is `a ++ "\n"` and the rest is the split of `b`. -/
theorem pySplit_append_sep {sep : List Char} (hsep : sep ≠ []) (hnl : '\n' ∉ sep)
    {a : List Char} (ha : containsSub sep a = false) (b : List Char) :
    pySplit sep (a ++ '\n' :: (sep ++ b)) = (a ++ ['\n']) :: pySplit sep b := by
  induction a with
  | nil =>
    simp only [List.nil_append]
    have hpre : sep.isPrefixOf ('\n' :: (sep ++ b)) = false := by
      cases sep with
      | nil => exact absurd rfl hsep
      | cons c cs =>
        have hc : c ≠ '\n' := by
          intro hc
          exact hnl (hc ▸ List.mem_cons_self c cs)
        simp only [List.isPrefixOf, Bool.and_eq_false_iff]
        left
        simpa using hc
    rw [pySplit_cons_neg hpre, pySplit_sep_append hsep b]
  | cons x a' ih =>
    rw [containsSub_cons, Bool.or_eq_false_iff] at ha
    have hpre : sep.isPrefixOf (x :: (a' ++ '\n' :: (sep ++ b))) = false := by
      rw [show x :: (a' ++ '\n' :: (sep ++ b)) = (x :: a') ++ '\n' :: (sep ++ b) from rfl,
        isPrefixOf_append_newline hnl (x :: a') (sep ++ b)]
      exact ha.1
    rw [List.cons_append, pySplit_cons_neg hpre, ih ha.2]
    rfl

/-! Lemmas about the newline / whitespace stripping helpers. -/

/-- The first character surviving `dropWhile` falsifies the predicate. -/
theorem dropWhile_head_false {p : Char → Bool} :
    ∀ {l : List Char} {c : Char} {t : List Char}, l.dropWhile p = c :: t → p c = false := by
  intro l
  induction l with
  | nil => intro c t h; simp at h
  | cons a l' ih =>
    intro c t h
    rw [List.dropWhile_cons] at h
    by_cases hp : p a = true
    · rw [if_pos hp] at h
      exact ih h
    · rw [if_neg hp] at h
      injection h with h1 _
      rw [← h1]
      exact Bool.eq_false_iff.mpr hp

/-- Python `dropWhile` is idempotent. -/
theorem dropWhile_idem (p : Char → Bool) (l : List Char) :
    (l.dropWhile p).dropWhile p = l.dropWhile p := by
  induction l with
  | nil => rfl
  | cons a l' ih =>
    rw [List.dropWhile_cons]
    by_cases hp : p a = true
    · rw [if_pos hp]; exact ih
    · rw [if_neg hp, List.dropWhile_cons, if_neg hp]

/-- Left-stripping is idempotent. -/
theorem lstripNL_idem (s : List Char) : lstripNL (lstripNL s) = lstripNL s :=
  dropWhile_idem _ s

/-- Right-stripping is idempotent. -/
theorem rstripNL_idem (s : List Char) : rstripNL (rstripNL s) = rstripNL s := by
  simp only [rstripNL, List.reverse_reverse]
  rw [dropWhile_idem]

/-- Left-stripping drops a leading newline. -/
theorem lstripNL_cons_nl (t : List Char) : lstripNL ('\n' :: t) = lstripNL t := by
  simp [lstripNL, List.dropWhile_cons]

/-- Left-stripping fixes a string whose head is not a newline. -/
theorem lstripNL_cons_of_ne {c : Char} (h : c ≠ '\n') (t : List Char) :
    lstripNL (c :: t) = c :: t := by
  simp only [lstripNL, List.dropWhile_cons]
  rw [if_neg (by simpa using h)]

/-- Right-stripping drops a trailing newline. -/
theorem rstripNL_append_nl (u : List Char) : rstripNL (u ++ ['\n']) = rstripNL u := by
  simp [rstripNL, List.reverse_append, List.dropWhile_cons]

/-- The right strip of a string is a prefix of it. -/
theorem rstripNL_prefix (s : List Char) : rstripNL s <+: s := by
  have h := List.dropWhile_suffix (l := s.reverse) (fun c => c == '\n')
  rw [show s.reverse.dropWhile (fun c => c == '\n') = (rstripNL s).reverse by
    simp [rstripNL]] at h
  exact List.reverse_suffix.mp h

/-- The left strip of a string is a suffix of it. -/
theorem lstripNL_suffix (s : List Char) : lstripNL s <:+ s :=
  List.dropWhile_suffix _

/-- A right-stripped non-empty string stays fixed when material is
prepended. -/
theorem rstripNL_append_self {v : List Char} (hfix : rstripNL v = v)
    (hne : v ≠ []) (u : List Char) : rstripNL (u ++ v) = u ++ v := by
  have hrev : v.reverse.dropWhile (fun c => c == '\n') = v.reverse := by
    have := congrArg List.reverse hfix
    simpa [rstripNL] using this
  cases hv : v.reverse with
  | nil => exact absurd (by simpa using hv) hne
  | cons c w =>
    have hdw : List.dropWhile (fun x => x == '\n') (c :: w) = c :: w := by
      rw [← hv]
      exact hrev
    have hc : (c == '\n') = false := by simpa using dropWhile_head_false hdw
    simp only [rstripNL, List.reverse_append, hv, List.cons_append, List.dropWhile_cons, hc,
      if_false]
    rw [show c :: (w ++ u.reverse) = (c :: w) ++ u.reverse from rfl, ← hv]
    simp

/-- Left-stripping commutes away after right-stripping an already
left-stripped string. -/
theorem lstripNL_rstripNL {w : List Char} (hfix : lstripNL w = w) :
    lstripNL (rstripNL w) = rstripNL w := by
  cases hw : w with
  | nil => rfl
  | cons c t =>
    have hdw : List.dropWhile (fun x => x == '\n') (c :: t) = c :: t := by
      have h' := hfix
      rw [hw] at h'
      exact h'
    have hc : (c == '\n') = false := by simpa using dropWhile_head_false hdw
    rcases hr : rstripNL (c :: t) with _ | ⟨d, t'⟩
    · rfl
    · have hpre : rstripNL (c :: t) <+: c :: t := rstripNL_prefix _
      rw [hr] at hpre
      obtain ⟨z, hz⟩ := hpre
      have hd : d = c := by injection hz with h1 _
      rw [hd]
      exact lstripNL_cons_of_ne (by simpa using hc) t'

/-- The strip of a string is right-strip fixed. -/
theorem stripNL_rstrip_fix (r : List Char) : rstripNL (stripNL r) = stripNL r :=
  rstripNL_idem _

/-- The strip of a string is left-strip fixed. -/
theorem stripNL_lstrip_fix (r : List Char) : lstripNL (stripNL r) = stripNL r :=
  lstripNL_rstripNL (lstripNL_idem r)

/-- A pattern absent from a string is absent from its strip. -/
theorem containsSub_stripNL_false {sep r : List Char} (hsep : sep ≠ [])
    (h : containsSub sep r = false) : containsSub sep (stripNL r) = false := by
  obtain ⟨x, hx⟩ := lstripNL_suffix r
  have h1 : containsSub sep (lstripNL r) = false := by
    have h' : containsSub sep (x ++ lstripNL r) = false := by rw [hx]; exact h
    exact (containsSub_append_false hsep h').2
  obtain ⟨y, hy⟩ := rstripNL_prefix (lstripNL r)
  have h2 : containsSub sep (rstripNL (lstripNL r) ++ y) = false := by rw [hy]; exact h1
  exact (containsSub_append_false hsep h2).1

/-- A string starting with the (non-empty) pattern contains it. -/
theorem containsSub_self_append {sep : List Char} (hsep : sep ≠ []) (b : List Char) :
    containsSub sep (sep ++ b) = true := by
  cases hs : sep with
  | nil => exact absurd hs hsep
  | cons c cs =>
    subst hs
    rw [List.cons_append, containsSub_cons]
    have hpre : (c :: cs).isPrefixOf (c :: (cs ++ b)) = true := by
      rw [List.isPrefixOf_iff_prefix]
      exact List.prefix_append (c :: cs) b
    rw [hpre, Bool.true_or]

/-- Unfolding `responseSplitStep` when the close tag is present. -/
theorem responseSplitStep_pos {raw : List Char}
    (h : containsSub endThinkTag raw = true) :
    responseSplitStep raw =
      (lstripNL ((pySplit endThinkTag raw).getLastD []),
       lstripNL ((pySplit openThinkTag (rstripNL ((pySplit endThinkTag raw).headD []))).getLastD [])) := by
  simp only [responseSplitStep]
  rw [if_pos h]

/-- Unfolding `responseSplitStep` when the close tag is absent. -/
theorem responseSplitStep_neg {raw : List Char}
    (h : containsSub endThinkTag raw = false) :
    responseSplitStep raw = (raw, []) := by
  simp only [responseSplitStep]
  rw [if_neg (by rw [h]; exact Bool.false_ne_true)]

/-- Decoding the canonical last-turn segment
`"<think>\n" ++ r ++ "\n</think>\n\n" ++ w` recovers `(w, r)` whenever `r`
is newline-trimmed and tag-free and `w` is close-tag-free with no leading
newline. -/
theorem responseSplitStep_segment {r' w : List Char}
    (hr1 : containsSub endThinkTag r' = false)
    (hr2 : containsSub openThinkTag r' = false)
    (hrl : lstripNL r' = r') (hrr : rstripNL r' = r')
    (hw : containsSub endThinkTag w = false)
    (hwl : lstripNL w = w) :
    responseSplitStep (openThinkTag ++ '\n' :: (r' ++ '\n' :: (endThinkTag ++ '\n' :: '\n' :: w)))
      = (w, r') := by
  have hend : endThinkTag ≠ [] := by decide
  have hopen : openThinkTag ≠ [] := by decide
  have hnlE : '\n' ∉ endThinkTag := by decide
  have hnlO : '\n' ∉ openThinkTag := by decide
  have hs : openThinkTag ++ '\n' :: (r' ++ '\n' :: (endThinkTag ++ '\n' :: '\n' :: w))
      = (openThinkTag ++ '\n' :: r') ++ '\n' :: (endThinkTag ++ '\n' :: '\n' :: w) := by
    simp
  have hAfree : containsSub endThinkTag (openThinkTag ++ '\n' :: r') = false := by
    rw [containsSub_append_newline hend hnlE, hr1,
      show containsSub endThinkTag openThinkTag = false by decide]
    rfl
  have hB : containsSub endThinkTag ('\n' :: '\n' :: w) = false := by
    have e1 := containsSub_append_newline hend hnlE [] ('\n' :: w)
    have e2 := containsSub_append_newline hend hnlE [] w
    simp only [List.nil_append] at e1 e2
    rw [e1, e2, containsSub_nil_of_ne hend, hw]
    rfl
  have hsplitE : pySplit endThinkTag
      ((openThinkTag ++ '\n' :: r') ++ '\n' :: (endThinkTag ++ '\n' :: '\n' :: w))
      = [(openThinkTag ++ '\n' :: r') ++ ['\n'], '\n' :: '\n' :: w] := by
    rw [pySplit_append_sep hend hnlE hAfree, pySplit_of_not_contains hB]
  have hcont : containsSub endThinkTag
      ((openThinkTag ++ '\n' :: r') ++ '\n' :: (endThinkTag ++ '\n' :: '\n' :: w)) = true := by
    rw [containsSub_append_newline hend hnlE, containsSub_self_append hend, Bool.or_true]
  rw [hs, responseSplitStep_pos hcont, hsplitE]
  have hvis : lstripNL ([(openThinkTag ++ '\n' :: r') ++ ['\n'], '\n' :: '\n' :: w].getLastD [])
      = w := by
    simp only [List.getLastD_cons, List.getLastD_nil]
    rw [lstripNL_cons_nl, lstripNL_cons_nl, hwl]
  have hhead : [(openThinkTag ++ '\n' :: r') ++ ['\n'], '\n' :: '\n' :: w].headD []
      = (openThinkTag ++ '\n' :: r') ++ ['\n'] := rfl
  rw [hvis, hhead, rstripNL_append_nl]
  by_cases hr' : r' = []
  · subst hr'
    rw [show rstripNL (openThinkTag ++ '\n' :: ([] : List Char)) = openThinkTag by decide]
    rw [show pySplit openThinkTag openThinkTag = [[], []] by
      have := pySplit_sep_append hopen ([] : List Char)
      rw [List.append_nil] at this
      rw [this]
      rfl]
    rfl
  · have hA2 : rstripNL (openThinkTag ++ '\n' :: r') = openThinkTag ++ '\n' :: r' := by
      have : openThinkTag ++ '\n' :: r' = (openThinkTag ++ ['\n']) ++ r' := by simp
      rw [this]
      exact rstripNL_append_self hrr hr' _
    rw [hA2]
    have hnr : containsSub openThinkTag ('\n' :: r') = false := by
      have e1 := containsSub_append_newline hopen hnlO [] r'
      simp only [List.nil_append] at e1
      rw [e1, containsSub_nil_of_ne hopen, hr2]
      rfl
    rw [pySplit_sep_append hopen ('\n' :: r'), pySplit_of_not_contains hnr]
    simp only [List.getLastD_cons, List.getLastD_nil]
    rw [lstripNL_cons_nl, hrl]

/-- Case analysis of the EOS-strip step of
`_parse_query_response_prompting`: strip the trailing `eos` and trailing
whitespace exactly when `eos` is non-empty and the visible part ends with
it. -/
theorem parse_cases (raw eos : List Char) :
    parseQueryResponsePrompting raw eos =
      ((if eos = [] then (responseSplitStep raw).1
        else if eos.isSuffixOf (responseSplitStep raw).1 then
          pyRstripWS (List.take ((responseSplitStep raw).1.length - eos.length)
            (responseSplitStep raw).1)
        else (responseSplitStep raw).1),
       (responseSplitStep raw).2) := by
  simp only [parseQueryResponsePrompting]
  cases heos : eos with
  | nil =>
    simp
  | cons c t =>
    rw [if_neg (by simp : ¬((c :: t : List Char) = []))]
    by_cases hsuf : (c :: t).isSuffixOf (responseSplitStep raw).1 = true
    · rw [if_pos (by rw [hsuf]; rfl), if_pos hsuf]
    · rw [if_neg (by
        intro hcon
        rcases Bool.and_eq_true_iff.mp hcon with ⟨-, h2⟩
        exact hsuf h2),
        if_neg hsuf]

/-- Unfolding `renderTurn` for a last assistant turn carrying a truthy
`reasoning_content` field. -/
theorem renderTurn_last_assistant {v r eos : List Char} {numLoop idx : Nat}
    (hodd : idx % 2 = 1) (hlast : idx = numLoop - 1) (hrne : r ≠ []) :
    renderTurn eos numLoop idx ⟨Role.assistant, v, some r⟩ =
      Except.ok (openThinkTag ++ '\n' ::
        (stripNL r ++ '\n' :: (endThinkTag ++ '\n' :: '\n' :: (lstripNL v ++ eos)))) := by
  simp only [renderTurn, truthyReasoning]
  rw [if_neg (by omega : ¬ idx % 2 = 0), if_neg hrne]
  rw [if_pos ⟨hlast, hrne⟩]

/-- Round-trip for the last assistant turn (amended): when the reasoning
field is set, non-empty and tag-free, and the stripped visible text
followed by the EOS token is close-tag-free without a leading newline,
decoding the emitted segment with the same EOS token recovers the stripped
reasoning, and the visible text up to the newline-trim normalization and
(for a non-empty EOS token) the trailing-whitespace trim of the EOS strip. -/
theorem roundtrip_last_assistant_segment
    (v r eos : List Char) (numLoop idx : Nat)
    (hodd : idx % 2 = 1) (hlast : idx = numLoop - 1)
    (hrne : r ≠ [])
    (hr1 : containsSub endThinkTag r = false)
    (hr2 : containsSub openThinkTag r = false)
    (hve : containsSub endThinkTag (lstripNL v ++ eos) = false)
    (hvl : lstripNL (lstripNL v ++ eos) = lstripNL v ++ eos) :
    ∃ s, renderTurn eos numLoop idx ⟨Role.assistant, v, some r⟩ = Except.ok s ∧
      parseQueryResponsePrompting s eos =
        ((if eos = [] then lstripNL v else pyRstripWS (lstripNL v)), stripNL r) := by
  have hend : endThinkTag ≠ [] := by decide
  have hopen : openThinkTag ≠ [] := by decide
  refine ⟨_, renderTurn_last_assistant hodd hlast hrne, ?_⟩
  have hsplit : responseSplitStep (openThinkTag ++ '\n' ::
      (stripNL r ++ '\n' :: (endThinkTag ++ '\n' :: '\n' :: (lstripNL v ++ eos))))
      = (lstripNL v ++ eos, stripNL r) :=
    responseSplitStep_segment
      (containsSub_stripNL_false hend hr1)
      (containsSub_stripNL_false hopen hr2)
      (stripNL_lstrip_fix r) (stripNL_rstrip_fix r) hve hvl
  rw [parse_cases, hsplit]
  cases heos : eos with
  | nil =>
    rw [if_pos rfl, if_pos rfl]
    rw [List.append_nil]
  | cons c t =>
    rw [if_neg (by simp : ¬((c :: t : List Char) = [])),
      if_neg (by simp : ¬((c :: t : List Char) = []))]
    have hsuf : (c :: t).isSuffixOf (lstripNL v ++ c :: t) = true :=
      List.isSuffixOf_iff_suffix.mpr (List.suffix_append _ _)
    rw [if_pos hsuf]
    have htake : List.take ((lstripNL v ++ c :: t).length - (c :: t).length)
        (lstripNL v ++ c :: t) = lstripNL v := by
      rw [List.length_append, Nat.add_sub_cancel]
      exact List.take_left _ _
    rw [htake]

/-! Correspondence of the Python split accessors `parts[0]` / `parts[-1]`
with the first- and last-occurrence reference functions. -/

/-- A non-empty pattern is not a prefix of the empty string. -/
theorem isPrefixOf_nil_false {sep : List Char} (hsep : sep ≠ []) :
    sep.isPrefixOf ([] : List Char) = false := by
  cases sep with
  | nil => exact absurd rfl hsep
  | cons c cs => rfl

/-- Containment is equivalent to an occurrence at some position. -/
theorem containsSub_iff_occurrence {sep : List Char} (hsep : sep ≠ []) (s : List Char) :
    containsSub sep s = true ↔ ∃ i, sep.isPrefixOf (s.drop i) = true := by
  induction s with
  | nil =>
    rw [containsSub_nil_of_ne hsep]
    constructor
    · intro h; exact absurd h (by simp)
    · rintro ⟨i, hi⟩
      rw [List.drop_nil, isPrefixOf_nil_false hsep] at hi
      exact absurd hi (by simp)
  | cons a rest ih =>
    rw [containsSub_cons]
    constructor
    · intro h
      rcases Bool.or_eq_true_iff.mp h with h0 | hr
      · exact ⟨0, by rw [List.drop_zero]; exact h0⟩
      · obtain ⟨i, hi⟩ := ih.mp hr
        exact ⟨i + 1, by rw [List.drop_succ_cons]; exact hi⟩
    · rintro ⟨i, hi⟩
      cases i with
      | zero =>
        rw [List.drop_zero] at hi
        rw [hi, Bool.true_or]
      | succ j =>
        rw [List.drop_succ_cons] at hi
        rw [ih.mpr ⟨j, hi⟩, Bool.or_true]

/-- In a border-free pattern, two occurrences cannot overlap. -/
theorem borderFree_no_overlap {sep t : List Char} (hb : borderFree sep = true)
    {k : Nat} (h0 : sep.isPrefixOf t = true) (hk : sep.isPrefixOf (t.drop k) = true)
    (hk0 : 0 < k) (hklen : k < sep.length) : False := by
  obtain ⟨t₁, ht⟩ := List.isPrefixOf_iff_prefix.mp h0
  have hdrop : t.drop k = sep.drop k ++ t₁ := by
    rw [← ht, List.drop_append_eq_append_drop, Nat.sub_eq_zero_of_le (Nat.le_of_lt hklen),
      List.drop_zero]
  rw [hdrop] at hk
  have hpre2 : sep <+: sep.drop k ++ t₁ := List.isPrefixOf_iff_prefix.mp hk
  have hshort : sep.drop k <+: sep := by
    refine List.prefix_of_prefix_length_le (List.prefix_append _ _) hpre2 ?_
    rw [List.length_drop]
    omega
  have heq : sep.drop k = sep.take (sep.length - k) := by
    have h1 := List.prefix_iff_eq_take.mp hshort
    rw [List.length_drop] at h1
    exact h1
  have hall := List.all_eq_true.mp hb k (List.mem_range.mpr hklen)
  rcases Bool.or_eq_true_iff.mp hall with hzero | hneq
  · have : k = 0 := by simpa using hzero
    omega
  · rw [Bool.not_eq_true', beq_eq_false_iff_ne] at hneq
    exact hneq heq

/-- A pattern-free string is returned whole by `afterLastOcc`. -/
theorem afterLastOcc_of_not_contains {sep s : List Char}
    (h : containsSub sep s = false) : afterLastOcc sep s = s := by
  cases s with
  | nil => rfl
  | cons a rest =>
    rw [containsSub_cons, Bool.or_eq_false_iff] at h
    simp only [afterLastOcc]
    rw [if_neg (by rw [h.2]; exact Bool.false_ne_true), if_neg (by rw [h.1]; exact Bool.false_ne_true)]

/-- The last occurrence lies in the right half once the right half contains
the pattern. -/
theorem afterLastOcc_append {sep v : List Char} (hv : containsSub sep v = true)
    (u : List Char) : afterLastOcc sep (u ++ v) = afterLastOcc sep v := by
  induction u with
  | nil => rfl
  | cons x u' ih =>
    rw [List.cons_append]
    simp only [afterLastOcc]
    rw [if_pos (containsSub_append_right u' hv), ih]

/-- A string containing the pattern splits into at least two parts. -/
theorem pySplit_length_ge_two {sep : List Char} (hsep : sep ≠ []) :
    ∀ {s : List Char}, containsSub sep s = true → 2 ≤ (pySplit sep s).length := by
  intro s
  induction s with
  | nil => intro h; rw [containsSub_nil_of_ne hsep] at h; exact absurd h (by simp)
  | cons a rest ih =>
    intro h
    by_cases hp : sep.isPrefixOf (a :: rest) = true
    · rw [pySplit_cons_pos hp hsep, List.length_cons]
      have h1 : 1 ≤ (pySplit sep (List.drop sep.length (a :: rest))).length := by
        cases hq : pySplit sep (List.drop sep.length (a :: rest)) with
        | nil => exact absurd hq (pySplit_ne_nil _ _)
        | cons q qs => simp
      omega
    · rw [containsSub_cons, Bool.or_eq_true_iff] at h
      rcases h with h0 | hr
      · exact absurd h0 hp
      · rw [pySplit_cons_neg (Bool.eq_false_iff.mpr hp)]
        have := ih hr
        cases hq : pySplit sep rest with
        | nil => exact absurd hq (pySplit_ne_nil _ _)
        | cons q qs =>
          rw [hq] at this
          simp only [List.length_cons]
          simp only [List.length_cons] at this
          omega

/-- Python `parts[0]` is the segment before the first occurrence. -/
theorem pySplit_headD_eq_beforeFirstOcc {sep : List Char} (hsep : sep ≠ []) :
    ∀ s : List Char, (pySplit sep s).headD [] = beforeFirstOcc sep s := by
  intro s
  induction s with
  | nil => rfl
  | cons a rest ih =>
    by_cases hp : sep.isPrefixOf (a :: rest) = true
    · rw [pySplit_cons_pos hp hsep]
      simp only [beforeFirstOcc]
      rw [if_pos hp]
      rfl
    · rw [pySplit_cons_neg (Bool.eq_false_iff.mpr hp)]
      simp only [beforeFirstOcc]
      rw [if_neg hp]
      cases hq : pySplit sep rest with
      | nil => exact absurd hq (pySplit_ne_nil _ _)
      | cons q qs =>
        rw [hq] at ih
        simp only [List.headD_cons] at ih ⊢
        rw [ih]

/-- Python `parts[-1]` is the segment after the last occurrence, for a
border-free pattern. -/
theorem pySplit_getLastD_eq_afterLastOcc {sep : List Char} (hsep : sep ≠ [])
    (hb : borderFree sep = true) :
    ∀ s : List Char, (pySplit sep s).getLastD [] = afterLastOcc sep s := by
  have hsep1 : 1 ≤ sep.length := by
    cases sep with
    | nil => exact absurd rfl hsep
    | cons c cs => simp
  suffices h : ∀ n (s : List Char), s.length ≤ n →
      (pySplit sep s).getLastD [] = afterLastOcc sep s by
    exact fun s => h s.length s (Nat.le_refl _)
  intro n
  induction n with
  | zero =>
    intro s hs
    have : s = [] := List.length_eq_zero.mp (Nat.le_zero.mp hs)
    subst this
    rfl
  | succ n ih =>
    intro s hs
    cases s with
    | nil => rfl
    | cons a rest =>
      simp only [List.length_cons] at hs
      by_cases hp : sep.isPrefixOf (a :: rest) = true
      · rw [pySplit_cons_pos hp hsep]
        have hlenw : (List.drop sep.length (a :: rest)).length ≤ n := by
          simp only [List.length_drop, List.length_cons]
          omega
        have hrec := ih _ hlenw
        have hgl : ([] :: pySplit sep (List.drop sep.length (a :: rest))).getLastD [] =
            (pySplit sep (List.drop sep.length (a :: rest))).getLastD [] := by
          cases hq : pySplit sep (List.drop sep.length (a :: rest)) with
          | nil => exact absurd hq (pySplit_ne_nil _ _)
          | cons q qs =>
            rw [List.getLastD_cons, List.getLastD_cons]
        rw [hgl, hrec]
        obtain ⟨w', hsw⟩ := List.isPrefixOf_iff_prefix.mp hp
        have hw' : List.drop sep.length (a :: rest) = w' := by
          rw [← hsw, List.drop_left]
        rw [hw']
        by_cases hcw : containsSub sep w' = true
        · rw [← hsw, afterLastOcc_append hcw]
        · rw [afterLastOcc_of_not_contains (Bool.eq_false_iff.mpr hcw)]
          have hcr : containsSub sep rest = false := by
            by_contra hcon
            rw [Bool.not_eq_false] at hcon
            obtain ⟨i, hi⟩ := (containsSub_iff_occurrence hsep rest).mp hcon
            have hocc : sep.isPrefixOf ((a :: rest).drop (i + 1)) = true := by
              rw [List.drop_succ_cons]
              exact hi
            by_cases hlt : i + 1 < sep.length
            · exact borderFree_no_overlap hb hp hocc (Nat.succ_pos i) hlt
            · have hdrop2 : (a :: rest).drop (i + 1) = w'.drop (i + 1 - sep.length) := by
                rw [← hsw, List.drop_append_eq_append_drop,
                  List.drop_eq_nil_of_le (by omega : sep.length ≤ i + 1)]
                rfl
              rw [hdrop2] at hocc
              have : containsSub sep w' = true :=
                (containsSub_iff_occurrence hsep w').mpr ⟨i + 1 - sep.length, hocc⟩
              exact hcw this
          simp only [afterLastOcc]
          rw [if_neg (by rw [hcr]; exact Bool.false_ne_true), if_pos hp, hw']
      · rw [pySplit_cons_neg (Bool.eq_false_iff.mpr hp)]
        have hrec := ih rest (by omega)
        cases hq : pySplit sep rest with
        | nil => exact absurd hq (pySplit_ne_nil _ _)
        | cons q qs =>
          rw [hq] at hrec
          by_cases hcr : containsSub sep rest = true
          · have h2 := pySplit_length_ge_two hsep hcr
            rw [hq] at h2
            simp only [List.length_cons] at h2
            have hqs : qs ≠ [] := by
              intro hnil
              rw [hnil] at h2
              simp at h2
            have hind : ∀ (d₁ d₂ : List Char), qs.getLastD d₁ = qs.getLastD d₂ := by
              intro d₁ d₂
              cases qs with
              | nil => exact absurd rfl hqs
              | cons x xs => rw [List.getLastD_cons, List.getLastD_cons]
            rw [List.getLastD_cons]
            simp only [afterLastOcc]
            rw [if_pos hcr, ← hrec, List.getLastD_cons]
            exact hind _ _
          · have hone : pySplit sep rest = [rest] :=
              pySplit_of_not_contains (Bool.eq_false_iff.mpr hcr)
            rw [hq] at hone
            injection hone with hq1 hq2
            subst hq1
            subst hq2
            simp only [afterLastOcc]
            rw [if_neg (by rw [Bool.eq_false_iff.mpr hcr]; exact Bool.false_ne_true),
              if_neg hp]
            rfl

/-- Unfolding the encoder-side inline split when the close tag is absent. -/
theorem inlineSplitStep_neg {content : List Char}
    (h : containsSub endThinkTag content = false) :
    inlineSplitStep content = (content, []) := by
  simp only [inlineSplitStep]
  rw [if_neg (by rw [h]; exact Bool.false_ne_true)]

/-! Characterization of the errors raised by the `_format_prompt` loop. -/

/-- A single loop turn raises exactly on a violation, and the raised error
carries that turn's loop index. -/
theorem renderTurn_error_iff (eos : List Char) (numLoop idx : Nat) (m : Message) :
    ((∃ e, renderTurn eos numLoop idx m = Except.error e) ↔ isViolation idx m = true) ∧
    (∀ e, renderTurn eos numLoop idx m = Except.error e → e.index = idx) := by
  cases hrole : m.role with
  | user =>
    simp only [renderTurn, hrole, isViolation]
    by_cases hodd : idx % 2 = 1
    · rw [if_pos hodd]
      refine ⟨⟨fun _ => by simp [hodd], fun _ => ⟨_, rfl⟩⟩, ?_⟩
      intro e he
      injection he with h1
      rw [← h1]
      rfl
    · rw [if_neg hodd]
      constructor
      · constructor
        · rintro ⟨e, he⟩
          by_cases hlast : idx = numLoop - 1
          · rw [if_pos hlast] at he; exact absurd he (by simp)
          · rw [if_neg hlast] at he; exact absurd he (by simp)
        · intro h
          exact absurd (by simpa using h) hodd
      · intro e he
        by_cases hlast : idx = numLoop - 1
        · rw [if_pos hlast] at he; exact absurd he (by simp)
        · rw [if_neg hlast] at he; exact absurd he (by simp)
  | assistant =>
    simp only [renderTurn, hrole, isViolation]
    by_cases heven : idx % 2 = 0
    · rw [if_pos heven]
      refine ⟨⟨fun _ => by simp [heven], fun _ => ⟨_, rfl⟩⟩, ?_⟩
      intro e he
      injection he with h1
      rw [← h1]
      rfl
    · rw [if_neg heven]
      constructor
      · constructor
        · rintro ⟨e, he⟩
          by_cases hlast : (idx = numLoop - 1 ∧
              (match truthyReasoning m with
                | some r => (m.content, r)
                | none => inlineSplitStep m.content).2 ≠ [])
          · rw [if_pos hlast] at he; exact absurd he (by simp)
          · rw [if_neg hlast] at he; exact absurd he (by simp)
        · intro h
          exact absurd (by simpa using h) heven
      · intro e he
        by_cases hlast : (idx = numLoop - 1 ∧
            (match truthyReasoning m with
              | some r => (m.content, r)
              | none => inlineSplitStep m.content).2 ≠ [])
        · rw [if_pos hlast] at he; exact absurd he (by simp)
        · rw [if_neg hlast] at he; exact absurd he (by simp)
  | system =>
    constructor
    · constructor
      · intro _
        simp [isViolation, hrole]
      · intro _
        exact ⟨FormatError.unsupported idx Role.system, by simp [renderTurn, hrole]⟩
    · intro e he
      simp only [renderTurn, hrole] at he
      injection he with h1
      rw [← h1]
      rfl
  | other =>
    constructor
    · constructor
      · intro _
        simp [isViolation, hrole]
      · intro _
        exact ⟨FormatError.unsupported idx Role.other, by simp [renderTurn, hrole]⟩
    · intro e he
      simp only [renderTurn, hrole] at he
      injection he with h1
      rw [← h1]
      rfl

/-- The loop raises exactly when some turn violates the role/position
rules, and the raised error belongs to the first violating turn. -/
theorem renderLoop_error_iff (eos : List Char) (numLoop : Nat) :
    ∀ (rest : List Message) (start : Nat),
      ((∃ e, renderLoop eos numLoop start rest = Except.error e) ↔
        (∃ j m, rest[j]? = some m ∧ isViolation (start + j) m = true)) ∧
      (∀ e, renderLoop eos numLoop start rest = Except.error e →
        ∃ j m, rest[j]? = some m ∧ e.index = start + j ∧ isViolation (start + j) m = true ∧
          ∀ k m', k < j → rest[k]? = some m' → isViolation (start + k) m' = false) := by
  intro rest
  induction rest with
  | nil =>
    intro start
    constructor
    · constructor
      · rintro ⟨e, he⟩
        exact absurd he (by simp [renderLoop])
      · rintro ⟨j, m, hj, -⟩
        simp at hj
    · intro e he
      exact absurd he (by simp [renderLoop])
  | cons m rest ih =>
    intro start
    obtain ⟨iht_iff, iht_first⟩ := renderTurn_error_iff eos numLoop start m
    obtain ⟨ihl_iff, ihl_first⟩ := ih (start + 1)
    cases hturn : renderTurn eos numLoop start m with
    | error e0 =>
      have hloop : renderLoop eos numLoop start (m :: rest) = Except.error e0 := by
        simp only [renderLoop, hturn]
      have hviol : isViolation start m = true := iht_iff.mp ⟨e0, hturn⟩
      have hidx : e0.index = start := iht_first e0 hturn
      constructor
      · constructor
        · intro _
          exact ⟨0, m, by simp, by simpa using hviol⟩
        · intro _
          exact ⟨e0, hloop⟩
      · intro e he
        rw [hloop] at he
        injection he with he'
        subst he'
        refine ⟨0, m, by simp, by simpa using hidx, by simpa using hviol, ?_⟩
        intro k m' hk _
        omega
    | ok s0 =>
      have hnoviol : isViolation start m = false := by
        by_contra hcon
        rw [Bool.not_eq_false] at hcon
        obtain ⟨e, he⟩ := iht_iff.mpr hcon
        rw [hturn] at he
        exact absurd he (by simp)
      constructor
      · constructor
        · rintro ⟨e, he⟩
          simp only [renderLoop, hturn] at he
          cases hrec : renderLoop eos numLoop (start + 1) rest with
          | error e1 =>
            obtain ⟨j, m', hj, hv⟩ := ihl_iff.mp ⟨e1, hrec⟩
            refine ⟨j + 1, m', by simpa using hj, ?_⟩
            rw [show start + (j + 1) = start + 1 + j by omega]
            exact hv
          | ok t => rw [hrec] at he; exact absurd he (by simp)
        · rintro ⟨j, m', hj, hv⟩
          cases j with
          | zero =>
            have hm' : m = m' := by simpa using hj
            subst hm'
            rw [Nat.add_zero] at hv
            rw [hv] at hnoviol
            exact absurd hnoviol (by simp)
          | succ j' =>
            have hj' : rest[j']? = some m' := by simpa using hj
            have hv' : isViolation (start + 1 + j') m' = true := by
              rw [show start + 1 + j' = start + (j' + 1) by omega]
              exact hv
            obtain ⟨e1, he1⟩ := ihl_iff.mpr ⟨j', m', hj', hv'⟩
            refine ⟨e1, ?_⟩
            simp only [renderLoop, hturn, he1]
      · intro e he
        simp only [renderLoop, hturn] at he
        cases hrec : renderLoop eos numLoop (start + 1) rest with
        | error e1 =>
          rw [hrec] at he
          injection he with he'
          subst he'
          obtain ⟨j, m', hj, hidx, hv, hfirst⟩ := ihl_first _ hrec
          refine ⟨j + 1, m', by simpa using hj, by omega, ?_, ?_⟩
          · rw [show start + (j + 1) = start + 1 + j by omega]
            exact hv
          · intro k m'' hk hkm
            cases k with
            | zero =>
              have hm'' : m = m'' := by simpa using hkm
              subst hm''
              simpa using hnoviol
            | succ k' =>
              have hkm' : rest[k']? = some m'' := by simpa using hkm
              have := hfirst k' m'' (by omega) hkm'
              rw [show start + (k' + 1) = start + 1 + k' by omega]
              exact this
        | ok t => rw [hrec] at he; exact absurd he (by simp)

/-! Claim theorems. -/

/-- C1 (amended): round-trip for the last assistant turn. For an assistant
turn whose `reasoning_content` is set, non-empty, and free of both
reasoning tags, when the emitted segment is decoded with the same EOS
token, decoding recovers the newline-stripped reasoning exactly; the
visible part is recovered up to the leading-newline strip and — for a
non-empty EOS token — the trailing-whitespace trim performed by the EOS
strip. The stripped visible text followed by the EOS token must itself be
free of the close tag and must not begin with a newline. -/
theorem roundtrip_last_assistant_amended
    (v r eos : List Char) (numLoop idx : Nat)
    (hodd : idx % 2 = 1) (hlast : idx = numLoop - 1)
    (hrne : r ≠ [])
    (hr1 : containsSub endThinkTag r = false)
    (hr2 : containsSub openThinkTag r = false)
    (hve : containsSub endThinkTag (lstripNL v ++ eos) = false)
    (hvl : lstripNL (lstripNL v ++ eos) = lstripNL v ++ eos) :
    ∃ s, renderTurn eos numLoop idx ⟨Role.assistant, v, some r⟩ = Except.ok s ∧
      parseQueryResponsePrompting s eos =
        ((if eos = [] then lstripNL v else pyRstripWS (lstripNL v)), stripNL r) :=
  roundtrip_last_assistant_segment v r eos numLoop idx hodd hlast hrne hr1 hr2 hve hvl

/-- Witness for C1 (amended): the concrete turn `visible = "C"`,
`reasoning = "A"`, EOS token `"<EOS>"` round-trips. -/
theorem roundtrip_last_assistant_amended_witness :
    ∃ s, renderTurn (("<EOS>").data) 2 1 ⟨Role.assistant, ("C").data, some (("A").data)⟩ =
        Except.ok s ∧
      parseQueryResponsePrompting s (("<EOS>").data) =
        ((if (("<EOS>").data : List Char) = [] then lstripNL (("C").data)
          else pyRstripWS (lstripNL (("C").data))), stripNL (("A").data)) :=
  roundtrip_last_assistant_amended (("C").data) (("A").data) (("<EOS>").data) 2 1
    (by decide) (by decide) (by decide) (by decide) (by decide) (by decide) (by decide)

/-- Counterexample to C1 as stated: a reasoning field containing a literal
close tag (`"A</think>B"`) encodes fine, but decoding returns reasoning
`"A"`, not the original reasoning (whose newline-trim normalization is
itself). -/
theorem roundtrip_reasoning_tag_counterexample :
    renderTurn (("<EOS>").data) 2 1 ⟨Role.assistant, ("C").data, some (("A</think>B").data)⟩ =
      Except.ok (("<think>\nA</think>B\n</think>\n\nC<EOS>").data) ∧
    parseQueryResponsePrompting (("<think>\nA</think>B\n</think>\n\nC<EOS>").data)
        (("<EOS>").data) = (("C").data, ("A").data) ∧
    (("C").data, ("A").data) ≠ (("C").data, ("A</think>B").data) :=
  ⟨rfl, by decide, by decide⟩

/-- C2 (amended): for every input containing the close tag, the splitting
step takes the visible part after the last occurrence of the close tag
(leading newlines stripped), but the reasoning part comes from the segment
before the FIRST occurrence of the close tag (trailing newlines stripped,
then the part after the last open-tag occurrence, leading newlines
stripped). -/
theorem tag_tiebreak_amended (s : List Char) (h : containsSub endThinkTag s = true) :
    responseSplitStep s =
      (lstripNL (afterLastOcc endThinkTag s),
       lstripNL (afterLastOcc openThinkTag (rstripNL (beforeFirstOcc endThinkTag s)))) := by
  have hend : endThinkTag ≠ [] := by decide
  have hopen : openThinkTag ≠ [] := by decide
  have hbE : borderFree endThinkTag = true := by decide
  have hbO : borderFree openThinkTag = true := by decide
  rw [responseSplitStep_pos h,
    pySplit_getLastD_eq_afterLastOcc hend hbE s,
    pySplit_headD_eq_beforeFirstOcc hend s,
    pySplit_getLastD_eq_afterLastOcc hopen hbO]

/-- Witness for C2 (amended) at the claim's own example string. -/
theorem tag_tiebreak_amended_witness :
    responseSplitStep (("<think>\nA</think>\n<think>\nB</think>\nC").data) =
      (lstripNL (afterLastOcc endThinkTag (("<think>\nA</think>\n<think>\nB</think>\nC").data)),
       lstripNL (afterLastOcc openThinkTag (rstripNL (beforeFirstOcc endThinkTag
         (("<think>\nA</think>\n<think>\nB</think>\nC").data))))) :=
  tag_tiebreak_amended _ (by decide)

/-- Counterexample to C2 as stated: on the claim's example the code yields
reasoning `"A"` (from the segment before the FIRST close tag), not `"B"`. -/
theorem tag_tiebreak_counterexample :
    responseSplitStep (("<think>\nA</think>\n<think>\nB</think>\nC").data)
      = (("C").data, ("A").data) ∧
    (("C").data, ("A").data) ≠ (("C").data, ("B").data) :=
  ⟨by decide, by decide⟩

/-- C3 (amended): a non-last assistant turn is emitted byte-for-byte as
`content ++ endToken` when its reasoning field is truthy OR its content
contains no close tag; when the reasoning field is not truthy and the
content does contain a close tag, the emitted chunk is the split visible
part (not the original content) followed by `endToken`. -/
theorem historical_assistant_amended (eos : List Char) (numLoop idx : Nat) (m : Message)
    (hrole : m.role = Role.assistant) (hodd : idx % 2 = 1) (hnotlast : idx ≠ numLoop - 1) :
    ((truthyReasoning m ≠ none ∨ containsSub endThinkTag m.content = false) →
        renderTurn eos numLoop idx m = Except.ok (m.content ++ eos)) ∧
    (truthyReasoning m = none → containsSub endThinkTag m.content = true →
        renderTurn eos numLoop idx m = Except.ok ((inlineSplitStep m.content).1 ++ eos)) := by
  constructor
  · intro hcase
    simp only [renderTurn, hrole]
    rw [if_neg (by omega : ¬ idx % 2 = 0)]
    rcases htr : truthyReasoning m with _ | r
    · rcases hcase with hne | hfree
      · exact absurd htr hne
      · rw [inlineSplitStep_neg hfree]
        rw [if_neg (fun hcon => hnotlast hcon.1)]
    · rw [if_neg (fun hcon => hnotlast hcon.1)]
  · intro htr hfull
    simp only [renderTurn, hrole, htr]
    rw [if_neg (by omega : ¬ idx % 2 = 0)]
    rw [if_neg (fun hcon => hnotlast hcon.1)]

/-- Witness for C3 (amended): a tag-free historical assistant turn is
emitted byte-for-byte followed by the EOS token. -/
theorem historical_assistant_amended_witness :
    renderTurn (("<EOS>").data) 3 1 ⟨Role.assistant, ("hi").data, none⟩ =
      Except.ok (("hi").data ++ ("<EOS>").data) :=
  (historical_assistant_amended (("<EOS>").data) 3 1 ⟨Role.assistant, ("hi").data, none⟩
    rfl rfl (by decide)).1 (Or.inr (by decide))

/-- Counterexample to C3 as stated: a non-last assistant turn whose content
holds an inline think block and whose reasoning field is unset is re-split,
so its original `content ++ endToken` appears nowhere in the encoded
prompt. -/
theorem historical_assistant_counterexample :
    formatPrompt [] (("<EOS>").data)
      [⟨Role.user, ("q").data, none⟩,
       ⟨Role.assistant, ("<think>\nA</think>\nB").data, none⟩,
       ⟨Role.user, ("q2").data, none⟩]
      = Except.ok (("\n\n[SYSTEM_PROMPT]You are a helpful assistant. Think deeply before answering the user's question. Do the thinking inside <think>...</think> tags.[/SYSTEM_PROMPT][INST]q[/INST]B<EOS>[INST]q2[/INST]<think>\n").data) ∧
    containsSub ((("<think>\nA</think>\nB").data) ++ (("<EOS>").data))
      (("\n\n[SYSTEM_PROMPT]You are a helpful assistant. Think deeply before answering the user's question. Do the thinking inside <think>...</think> tags.[/SYSTEM_PROMPT][INST]q[/INST]B<EOS>[INST]q2[/INST]<think>\n").data) = false :=
  ⟨rfl, by decide⟩

/-- C4: `_format_prompt` raises iff the loop set contains a violating turn
(a user turn at an odd loop index, an assistant turn at an even loop index,
or any role outside user/assistant — in particular a system turn inside the
loop, i.e. after overall position 0), the raised error belongs to the first
violating turn, and a violation-free list encodes to a string. -/
theorem formatPrompt_error_characterization (bos eos : List Char) (msgs : List Message) :
    ((∃ e, formatPrompt bos eos msgs = Except.error e) ↔
      (∃ i m, (loopMessages msgs)[i]? = some m ∧ isViolation i m = true)) ∧
    (∀ e, formatPrompt bos eos msgs = Except.error e →
      (∃ m, (loopMessages msgs)[e.index]? = some m ∧ isViolation e.index m = true) ∧
      (∀ j m, j < e.index → (loopMessages msgs)[j]? = some m → isViolation j m = false)) ∧
    ((∀ i m, (loopMessages msgs)[i]? = some m → isViolation i m = false) →
      ∃ out, formatPrompt bos eos msgs = Except.ok out) := by
  obtain ⟨hiff, hfirst⟩ := renderLoop_error_iff eos (loopMessages msgs).length (loopMessages msgs) 0
  cases hrl : renderLoop eos (loopMessages msgs).length 0 (loopMessages msgs) with
  | error e0 =>
    have hfp : formatPrompt bos eos msgs = Except.error e0 := by
      simp only [formatPrompt, hrl]
    obtain ⟨j, m, hj, hidx, hv, hmin⟩ := hfirst e0 hrl
    rw [Nat.zero_add] at hidx hv
    refine ⟨⟨fun _ => ?_, fun _ => ⟨e0, hfp⟩⟩, ?_, ?_⟩
    · obtain ⟨j', m', hj', hv'⟩ := hiff.mp ⟨e0, hrl⟩
      rw [Nat.zero_add] at hv'
      exact ⟨j', m', hj', hv'⟩
    · intro e he
      rw [hfp] at he
      injection he with he'
      subst he'
      refine ⟨⟨m, hidx ▸ hj, hidx ▸ hv⟩, ?_⟩
      intro k m' hk hkm
      have := hmin k m' (by omega) hkm
      rw [Nat.zero_add] at this
      exact this
    · intro hnone
      exfalso
      have hvj : isViolation j m = false := hnone j m hj
      rw [hv] at hvj
      exact absurd hvj (by simp)
  | ok body =>
    have hfp : formatPrompt bos eos msgs = Except.ok
        (bos ++ '\n' :: '\n' :: (sysOpenTag ++ systemMessageOf msgs ++ sysCloseTag ++ body)) := by
      simp only [formatPrompt, hrl]
    refine ⟨⟨?_, ?_⟩, ?_, ?_⟩
    · rintro ⟨e, he⟩
      rw [hfp] at he
      exact absurd he (by simp)
    · rintro ⟨i, m, hi, hv⟩
      exfalso
      obtain ⟨e, he⟩ := hiff.mpr ⟨i, m, hi, by rw [Nat.zero_add]; exact hv⟩
      rw [hrl] at he
      exact absurd he (by simp)
    · intro e he
      rw [hfp] at he
      exact absurd he (by simp)
    · intro _
      exact ⟨_, hfp⟩

/-- C5: the code emits `bos + "\n\n"` before the `[SYSTEM_PROMPT]` wrapper,
contradicting both the claim and the handler's own docstring template
(which places `[SYSTEM_PROMPT]` immediately after the BOS token): at
`bos = "<s>"`, empty message list, the output inserts `"\n\n"` between the
two, so `bos ++ "[SYSTEM_PROMPT]"` is not a prefix of the output. -/
theorem bos_wrapper_gap_bug :
    formatPrompt (("<s>").data) [] []
      = Except.ok (("<s>\n\n[SYSTEM_PROMPT]You are a helpful assistant. Think deeply before answering the user's question. Do the thinking inside <think>...</think> tags.[/SYSTEM_PROMPT]").data) ∧
    ((("<s>").data ++ sysOpenTag).isPrefixOf
      (("<s>\n\n[SYSTEM_PROMPT]You are a helpful assistant. Think deeply before answering the user's question. Do the thinking inside <think>...</think> tags.[/SYSTEM_PROMPT]").data)) = false :=
  ⟨rfl, by decide⟩

/-- C6: end-to-end scenario — for turns `[system "Be terse.", user "2+2?"]`
the encoded prompt ends with `"[INST]2+2?[/INST]<think>\n"` (for every BOS
and EOS token), and decoding the raw completion
`"4 is the answer.</think>\n\nThe answer is 4.<EOS>"` with EOS token
`"<EOS>"` yields visible `"The answer is 4."` and reasoning
`"4 is the answer."`. -/
theorem end_to_end_scenario (bos eos : List Char) :
    (∃ s, formatPrompt bos eos
        [⟨Role.system, ("Be terse.").data, none⟩, ⟨Role.user, ("2+2?").data, none⟩] =
          Except.ok s ∧
      ("[INST]2+2?[/INST]<think>\n").data <:+ s) ∧
    parseQueryResponsePrompting (("4 is the answer.</think>\n\nThe answer is 4.<EOS>").data)
        (("<EOS>").data)
      = (("The answer is 4.").data, ("4 is the answer.").data) := by
  constructor
  · refine ⟨_, rfl, ?_⟩
    have hc : (instOpenTag ++ ("2+2?").data ++ instCloseTag ++ openThinkTag ++ ['\n']) ++
        ([] : List Char) = ("[INST]2+2?[/INST]<think>\n").data := by decide
    refine ⟨bos ++ '\n' :: '\n' :: (sysOpenTag ++ systemMessageOf
      [⟨Role.system, ("Be terse.").data, none⟩, ⟨Role.user, ("2+2?").data, none⟩] ++
      sysCloseTag), ?_⟩
    rw [← hc]
    simp [List.append_assoc]
  · decide

/-- C7: the encoder's inline assistant split and the decoder's completion
split (before EOS stripping) are the same function. -/
theorem split_steps_agree : ∀ s : List Char, inlineSplitStep s = responseSplitStep s :=
  fun _ => rfl

/-- C8: a completion without the close tag — even with an unmatched open
tag — passes through the (total, non-raising) split step unchanged with
empty reasoning, before the separate EOS-stripping step. -/
theorem missing_close_tag_tolerance (raw : List Char)
    (h : containsSub endThinkTag raw = false) :
    responseSplitStep raw = (raw, []) :=
  responseSplitStep_neg h

/-- Witness for C8 at a string with an unmatched open tag. -/
theorem missing_close_tag_tolerance_witness :
    containsSub endThinkTag (("<think>no close tag").data) = false ∧
    responseSplitStep (("<think>no close tag").data) = ((("<think>no close tag").data), []) :=
  ⟨by decide, missing_close_tag_tolerance _ (by decide)⟩

/-- C9: the decoder strips a trailing EOS token from the visible part
exactly when the EOS token is non-empty and the visible part ends with it,
then trims trailing whitespace; an empty EOS token is a complete no-op, in
particular `decode("hello", "")` is unchanged. -/
theorem eos_strip_characterization :
    (∀ raw eos : List Char,
      parseQueryResponsePrompting raw eos =
        ((if eos = [] then (responseSplitStep raw).1
          else if eos.isSuffixOf (responseSplitStep raw).1 then
            pyRstripWS (List.take ((responseSplitStep raw).1.length - eos.length)
              (responseSplitStep raw).1)
          else (responseSplitStep raw).1),
         (responseSplitStep raw).2)) ∧
    parseQueryResponsePrompting (("hello").data) [] = ((("hello").data), []) :=
  ⟨parse_cases, by decide⟩

/-- C10: `_add_assistant_message_prompting` appends exactly one assistant
turn carrying the decoded visible text byte-for-byte and the decoded
reasoning (defaulted to the empty string), leaves every previously stored
turn and every other part of the store unchanged, and returns the updated
store. -/
theorem add_assistant_message_frame {α : Type} (d : InferenceData α)
    (resp : ModelResponseData) :
    (addAssistantMessagePrompting d resp).message =
      d.message ++ [⟨Role.assistant, resp.model_responses, some (resp.reasoning_content.getD [])⟩] ∧
    (addAssistantMessagePrompting d resp).rest = d.rest ∧
    (∀ j : Nat, j < d.message.length →
      (addAssistantMessagePrompting d resp).message[j]? = d.message[j]?) := by
  refine ⟨rfl, rfl, ?_⟩
  intro j hj
  simp only [addAssistantMessagePrompting]
  rw [List.getElem?_append_left hj]

end SarvamM
